import Mathlib

/-!
Verification development for the InfluenceInGraph repository
(`Praducci_simulation.py` and `selection_of_nodes.py`).

The Python code is shallowly embedded as executable Lean definitions:

* A `Network` is a node list together with an edge list, mirroring a
  `networkx.Graph` (node iteration order is the list order, the neighbor
  set of `u` is derived from the edge list).
* Python operations that can raise (`ZeroDivisionError` on `b / n` or on
  a division by a zero cost, `KeyError` on `costs.loc[v, 'cost']`, and a
  pandas `0/0` producing an undefined value) are embedded as
  `Option`-valued functions, `none` marking the fault / undefined value.
* The global `random.uniform(0, 1)` stream of `buy_products` is passed
  explicitly as `draws : ℕ → ℚ`, one sample per node in iteration order.
* In `product_exposure_score` the only use of randomness is the test
  `rand < 1 / (1 + 10 * exp (-b / 2))`, whose threshold lies strictly
  between 0 and 1 for every `b`; the Boolean outcome of the k-th such
  test is passed explicitly as `exposes k b`, so that statements
  quantifying over all draw sequences quantify over all such oracles.
* `greedy_influencer_selection` consumes the Monte-Carlo estimator
  `compute_avg_marginal_gain(net, S, v, v_cost, iterations)` through the
  global random stream; the value it returns for a pair `(S, v)` is
  passed to the greedy loop as an explicit function
  `gain : Finset ℕ → ℕ → ℚ`, so that statements about the greedy loop
  quantify over every possible sequence of estimates.
* The `while True` loop of `greedy_influencer_selection` is embedded
  with an explicit fuel argument; the top-level entry point supplies
  fuel `|influencers| + 1`, which is proved sufficient (each committing
  iteration removes one candidate from the pool).
-/

namespace InfluenceInGraph

/-- A social network as built by `create_graph`: a list of nodes (in
iteration order) and an undirected edge list. -/
structure Network where
  nodes : List ℕ
  edges : List (ℕ × ℕ)

/-- Neighbor set of `u`, derived from the undirected edge list
(`set(net.neighbors(user))` in the source). -/
def nbrs (G : Network) (u : ℕ) : Finset ℕ :=
  (G.edges.filterMap fun e =>
    if e.1 = u then some e.2 else if e.2 = u then some e.1 else none).toFinset

/-- Loop body of `buy_products`: walks the node list, drawing one uniform
sample per node; `prob = b / n` raises `ZeroDivisionError` when `n = 0`,
embedded as `none`.  `acc` accumulates `new_purchases`. -/
def buyStep (G : Network) (purchased : Finset ℕ) (draws : ℕ → ℚ) :
    List ℕ → ℕ → Finset ℕ → Option (Finset ℕ)
  | [], _, acc => some acc
  | u :: rest, k, acc =>
    let nb := nbrs G u
    if nb.card = 0 then none
    else
      let prob : ℚ := ((nb ∩ purchased).card : ℚ) / (nb.card : ℚ)
      if draws k ≤ prob then buyStep G purchased draws rest (k + 1) (insert u acc)
      else buyStep G purchased draws rest (k + 1) acc

/-- `buy_products(net, purchased)`: one stochastic purchase round; the
result is `new_purchases.union(purchased)`. -/
def buyProducts (G : Network) (purchased : Finset ℕ) (draws : ℕ → ℚ) :
    Option (Finset ℕ) :=
  (buyStep G purchased draws G.nodes 0 ∅).map fun np => np ∪ purchased

/-- The driver loop of the main script: `purchased = set(influencers)` and
then `rounds` successive calls of `buy_products`; round `t` uses the draw
stream `draws t`. -/
def runRounds (G : Network) (seed : Finset ℕ) (draws : ℕ → ℕ → ℚ) :
    ℕ → Option (Finset ℕ)
  | 0 => some seed
  | t + 1 => (runRounds G seed draws t).bind fun p => buyProducts G p (draws t)

/-- Loop body of `product_exposure_score`: a purchased node always counts;
otherwise, when `b = |nbrs u ∩ purchased| ≠ 0`, one uniform sample is
drawn and the node counts iff `rand < 1 / (1 + 10 * exp (-b / 2))`, whose
Boolean outcome is `exposes k b` for the k-th drawn sample. -/
def exposureLoop (G : Network) (purchased : Finset ℕ) (exposes : ℕ → ℕ → Bool) :
    List ℕ → ℕ → ℕ → ℕ
  | [], _, acc => acc
  | u :: rest, k, acc =>
    if u ∈ purchased then exposureLoop G purchased exposes rest k (acc + 1)
    else
      let b := (nbrs G u ∩ purchased).card
      if b ≠ 0 then
        if exposes k b then exposureLoop G purchased exposes rest (k + 1) (acc + 1)
        else exposureLoop G purchased exposes rest (k + 1) acc
      else exposureLoop G purchased exposes rest k acc

/-- `product_exposure_score(net, purchased_set)`. -/
def productExposureScore (G : Network) (purchased : Finset ℕ)
    (exposes : ℕ → ℕ → Bool) : ℕ :=
  exposureLoop G purchased exposes G.nodes 0 0

/-- First-match lookup in the cost table (`costs['user'] == influencer`,
resp. `costs.loc[v, 'cost']`); `none` when the node is absent. -/
def lookupCost : List (ℕ × ℚ) → ℕ → Option ℚ
  | [], _ => none
  | (u, c) :: rest, v => if u = v then some c else lookupCost rest v

/-- `get_influencers_cost(cost_path, influencers)`: an influencer absent
from the table contributes `0` (the source guards the lookup with
`if influencer in list(costs['user']) else 0`). -/
def getInfluencersCost (costs : List (ℕ × ℚ)) (influencers : List ℕ) : ℚ :=
  (influencers.map fun i => (lookupCost costs i).getD 0).sum

/-- `compute_avg_marginal_gain(net, S, v, cost, iterations)`: the summed
marginal exposures are divided by `iterations` and then by `cost`; either
division by zero raises `ZeroDivisionError`, embedded as `none`.  Trial
`i` evaluates the two exposure scores with outcome oracles `e1 i` and
`e2 i`. -/
def computeAvgMarginalGain (G : Network) (S : Finset ℕ) (v : ℕ) (cost : ℚ)
    (iterations : ℕ) (e1 e2 : ℕ → ℕ → ℕ → Bool) : Option ℚ :=
  let total : ℤ := ∑ i in Finset.range iterations,
    ((productExposureScore G (insert v S) (e1 i) : ℤ) -
      (productExposureScore G S (e2 i) : ℤ))
  if iterations = 0 then none
  else if cost = 0 then none
  else some (((total : ℚ) / (iterations : ℚ)) / cost)

/-- `normalize(series)` = `(series - series.min()) / (series.max() - series.min())`.
The source has no guard: on a constant series every entry becomes the
undefined pandas value `0 / 0` (NaN), embedded as `none`; an empty series
stays empty. -/
def normalize (xs : List ℚ) : Option (List ℚ) :=
  match xs.min?, xs.max? with
  | some mn, some mx =>
      if mx = mn then none
      else some (xs.map fun x => (x - mn) / (mx - mn))
  | _, _ => some []

/-- `compute_weighted_centrality`, parameterized by the three centrality
series (`nx.degree_centrality`, `nx.betweenness_centrality` and
`nx.closeness_centrality` are networkx library calls; `deg`, `bet`, `clo`
list their values in node order).  Each series is min-max normalized, the
weighted sum is formed pointwise, and the result is sorted by score in
descending order (`sort_values(ascending=False)`). -/
def computeWeightedCentrality (wd wb wc : ℚ) (nodes : List ℕ)
    (deg bet clo : List ℚ) : Option (List (ℕ × ℚ)) :=
  (normalize deg).bind fun dn =>
  (normalize bet).bind fun bn =>
  (normalize clo).bind fun cn =>
    let scores := List.zipWith (fun d (p : ℚ × ℚ) => wd * d + wb * p.1 + wc * p.2)
      dn (bn.zip cn)
    some (List.insertionSort (fun p q : ℕ × ℚ => q.2 ≤ p.2) (nodes.zip scores))

/-- The affordability comprehension of `select_influencers`:
`[v for v in index if costs.loc[v, 'cost'] <= max_cost]`; `costs.loc`
raises `KeyError` (`none`) on a node absent from the table. -/
def filterAffordable (costs : List (ℕ × ℚ)) (maxCost : ℚ) :
    List ℕ → Option (List ℕ)
  | [] => some []
  | v :: rest =>
    match lookupCost costs v with
    | none => none
    | some c =>
      (filterAffordable costs maxCost rest).map fun l =>
        if c ≤ maxCost then v :: l else l

/-- `select_influencers(net, cost_path, top_n, max_cost)`: rank by the
weighted centrality (weights 0.4, 0.4, 0.2), keep affordable nodes in
ranked order, truncate to `top_n`. -/
def selectInfluencers (nodes : List ℕ) (deg bet clo : List ℚ)
    (costs : List (ℕ × ℚ)) (topN : ℕ) (maxCost : ℚ) : Option (List ℕ) :=
  (computeWeightedCentrality 0.4 0.4 0.2 nodes deg bet clo).bind fun wc =>
    (filterAffordable costs maxCost (wc.map Prod.fst)).map fun aff => aff.take topN

/-- The same pipeline as `selectInfluencers` but keeping each node paired
with its composite score, used to state the ordering property of the
returned candidate list. -/
def filterAffordablePairs (costs : List (ℕ × ℚ)) (maxCost : ℚ) :
    List (ℕ × ℚ) → Option (List (ℕ × ℚ))
  | [] => some []
  | p :: rest =>
    match lookupCost costs p.1 with
    | none => none
    | some c =>
      (filterAffordablePairs costs maxCost rest).map fun l =>
        if c ≤ maxCost then p :: l else l

/-- Pair-carrying version of `selectInfluencers` (same computation, the
node's composite score is kept alongside). -/
def selectInfluencersPairs (nodes : List ℕ) (deg bet clo : List ℚ)
    (costs : List (ℕ × ℚ)) (topN : ℕ) (maxCost : ℚ) :
    Option (List (ℕ × ℚ)) :=
  (computeWeightedCentrality 0.4 0.4 0.2 nodes deg bet clo).bind fun wc =>
    (filterAffordablePairs costs maxCost wc).map fun aff => aff.take topN

/-- The inner `for v in influencers` scan of `greedy_influencer_selection`.
`cur` is the running `(best_v, its cost, best_value)`; a candidate whose
cost lookup fails raises `KeyError` (`none`); an affordable candidate
replaces the running best iff `best_v is None or avg_mv > best_value`. -/
def bestCandidate (gain : Finset ℕ → ℕ → ℚ) (costs : List (ℕ × ℚ))
    (budget total : ℚ) (S : Finset ℕ) :
    List ℕ → Option (ℕ × ℚ × ℚ) → Option (Option (ℕ × ℚ × ℚ))
  | [], cur => some cur
  | v :: rest, cur =>
    match lookupCost costs v with
    | none => none
    | some c =>
      if total + c ≤ budget then
        let g := gain S v
        match cur with
        | none => bestCandidate gain costs budget total S rest (some (v, c, g))
        | some (bv, bc, bg) =>
          if bg < g then bestCandidate gain costs budget total S rest (some (v, c, g))
          else bestCandidate gain costs budget total S rest (some (bv, bc, bg))
      else bestCandidate gain costs budget total S rest cur

/-- The `while True` loop of `greedy_influencer_selection`, with explicit
fuel.  On a committing iteration `best_v` joins `S`, is removed from the
candidate list, and its cost is added to `total_cost`; the loop breaks
when `best_v is None`. -/
def greedyLoop (gain : Finset ℕ → ℕ → ℚ) (costs : List (ℕ × ℚ)) (budget : ℚ) :
    ℕ → Finset ℕ → ℚ → List ℕ → Option (Finset ℕ)
  | 0, S, _, _ => some S
  | fuel + 1, S, total, infl =>
    match bestCandidate gain costs budget total S infl none with
    | none => none
    | some none => some S
    | some (some (v, c, _)) =>
        greedyLoop gain costs budget fuel (insert v S) (total + c) (infl.erase v)

/-- `greedy_influencer_selection(net, cost_path, influencers, budget,
iterations)`.  Fuel `|influencers| + 1` is sufficient: each committing
iteration removes one candidate (proved below). -/
def greedyInfluencerSelection (gain : Finset ℕ → ℕ → ℚ) (costs : List (ℕ × ℚ))
    (budget : ℚ) (influencers : List ℕ) : Option (Finset ℕ) :=
  greedyLoop gain costs budget (influencers.length + 1) ∅ 0 influencers

/-- Sum of table costs over a finite node set (absent nodes contribute 0,
matching `get_influencers_cost`). -/
def costSum (costs : List (ℕ × ℚ)) (T : Finset ℕ) : ℚ :=
  ∑ v in T, (lookupCost costs v).getD 0

/-- The path graph 1 – 2 – 3 – 4 of the spec's diffusion scenario. -/
def pathNet : Network :=
  ⟨[1, 2, 3, 4], [(1, 2), (2, 3), (3, 4)]⟩

/-- A draw stream whose every uniform sample is 0 (forcing maximal
conversion). -/
def zeroDraw : ℕ → ℚ := fun _ => 0

/-- Per-round all-zero draw streams. -/
def zeroDraws : ℕ → ℕ → ℚ := fun _ _ => 0

instance : IsTotal (ℕ × ℚ) (fun p q : ℕ × ℚ => q.2 ≤ p.2) :=
  ⟨fun a b => le_total b.2 a.2⟩

instance : IsTrans (ℕ × ℚ) (fun p q : ℕ × ℚ => q.2 ≤ p.2) :=
  ⟨fun _ _ _ hab hbc => le_trans hbc hab⟩

attribute [local semireducible] Rat.mul Rat.inv Rat.add Rat.sub Rat.ofScientific

/-- Evaluation helper: an `Option` equals `some a` when it is `some` and
its `getD a` equals `a` (lets the two decidable sides evaluate without
the dependent rewrite of `Option`'s equality instance). -/
theorem option_eq_some_of_getD {α : Type} (o : Option α) (a : α)
    (h1 : o.isSome) (h2 : o.getD a = a) : o = some a := by
  cases o with
  | none => cases h1
  | some b => simpa using h2

/-- A node of the list with an empty neighborhood makes `buyStep` fault
(`b / n` with `n = 0`). -/
theorem buyStep_none_of_isolated (G : Network) (p : Finset ℕ) (d : ℕ → ℚ)
    (u : ℕ) (hu : nbrs G u = ∅) :
    ∀ l k acc, u ∈ l → buyStep G p d l k acc = none := by
  intro l
  induction l with
  | nil => intro k acc h; cases h
  | cons w rest ih =>
    intro k acc h
    rcases List.mem_cons.mp h with h | h
    · subst h
      simp [buyStep, hu]
    · by_cases hw : (nbrs G w).card = 0
      · simp [buyStep, hw]
      · by_cases hd : d k ≤ ((nbrs G w ∩ p).card : ℚ) / ((nbrs G w).card : ℚ)
        · simpa [buyStep, hw, hd] using ih (k + 1) (insert w acc) h
        · simpa [buyStep, hw, hd] using ih (k + 1) acc h

/-- When every node of the list has a neighbor, `buyStep` returns a
result. -/
theorem buyStep_isSome (G : Network) (p : Finset ℕ) (d : ℕ → ℚ) :
    ∀ l, (∀ u ∈ l, nbrs G u ≠ ∅) → ∀ k acc, (buyStep G p d l k acc).isSome := by
  intro l
  induction l with
  | nil => intro _ k acc; simp [buyStep]
  | cons w rest ih =>
    intro h k acc
    have hw : (nbrs G w).card ≠ 0 := by
      simpa [Finset.card_eq_zero] using h w (List.mem_cons_self w rest)
    have hrest : ∀ u ∈ rest, nbrs G u ≠ ∅ := fun u hu => h u (List.mem_cons_of_mem w hu)
    by_cases hd : d k ≤ ((nbrs G w ∩ p).card : ℚ) / ((nbrs G w).card : ℚ)
    · simpa [buyStep, hw, hd] using ih hrest (k + 1) (insert w acc)
    · simpa [buyStep, hw, hd] using ih hrest (k + 1) acc

/-- Round 1 of the spec's path scenario under all-zero draws: every node
converts at once (`p ≥ 0` holds for each node with a neighbor). -/
theorem buyProducts_path_round1 :
    buyProducts pathNet {1} zeroDraw = some {1, 2, 3, 4} :=
  option_eq_some_of_getD _ _ (by decide) (by decide)

/-- The full set is a fixed point of the purchase round on the path. -/
theorem buyProducts_path_stable :
    buyProducts pathNet {1, 2, 3, 4} zeroDraw = some {1, 2, 3, 4} :=
  option_eq_some_of_getD _ _ (by decide) (by decide)

/-- Upper bound for the exposure loop: each node adds at most one. -/
theorem exposureLoop_le (G : Network) (p : Finset ℕ) (e : ℕ → ℕ → Bool) :
    ∀ l k acc, exposureLoop G p e l k acc ≤ acc + l.length := by
  intro l
  induction l with
  | nil => intro k acc; simp [exposureLoop]
  | cons w rest ih =>
    intro k acc
    by_cases hw : w ∈ p
    · simpa [exposureLoop, hw, List.length_cons] using
        Nat.le_trans (ih k (acc + 1)) (by omega)
    · by_cases hb : (nbrs G w ∩ p).card ≠ 0
      · by_cases he : e k ((nbrs G w ∩ p).card) = true
        · simpa [exposureLoop, hw, hb, he] using
            Nat.le_trans (ih (k + 1) (acc + 1)) (by omega)
        · simpa [exposureLoop, hw, hb, he] using
            Nat.le_trans (ih (k + 1) acc) (by omega)
      · simpa [exposureLoop, hw, hb] using Nat.le_trans (ih k acc) (by omega)

/-- Lower bound for the exposure loop: every purchased node of the list
is counted unconditionally. -/
theorem countP_le_exposureLoop (G : Network) (p : Finset ℕ) (e : ℕ → ℕ → Bool) :
    ∀ l k acc, acc + l.countP (fun u => decide (u ∈ p)) ≤ exposureLoop G p e l k acc := by
  intro l
  induction l with
  | nil => intro k acc; simp [exposureLoop]
  | cons w rest ih =>
    intro k acc
    by_cases hw : w ∈ p
    · have := ih k (acc + 1)
      simp only [exposureLoop, if_pos hw]
      calc acc + (w :: rest).countP (fun u => decide (u ∈ p))
          = (acc + 1) + rest.countP (fun u => decide (u ∈ p)) := by
            simp [List.countP_cons, hw]; omega
        _ ≤ _ := ih k (acc + 1)
    · have hcnt : (w :: rest).countP (fun u => decide (u ∈ p))
          = rest.countP (fun u => decide (u ∈ p)) := by
        simp [List.countP_cons, hw]
      by_cases hb : (nbrs G w ∩ p).card ≠ 0
      · by_cases he : e k ((nbrs G w ∩ p).card) = true
        · simp only [exposureLoop, if_neg hw, if_pos hb, if_pos he, hcnt]
          exact Nat.le_trans (by omega) (ih (k + 1) (acc + 1))
        · simp only [exposureLoop, if_neg hw, if_pos hb, if_neg he, hcnt]
          exact ih (k + 1) acc
      · simp only [exposureLoop, if_neg hw, if_neg hb, hcnt]
        exact ih k acc

/-- C9: For every graph, every purchased set and every sequence of random
draws, `product_exposure_score` returns an integer between 0 and `|V|`
(the node count) inclusive, and every node of the graph that belongs to
the purchased set is counted as exposed unconditionally (the score is at
least the number of purchased nodes of the graph; it is a natural
number, so it is at least 0). -/
theorem productExposureScore_bounds (G : Network) (purchased : Finset ℕ)
    (exposes : ℕ → ℕ → Bool) :
    G.nodes.countP (fun u => decide (u ∈ purchased)) ≤
        productExposureScore G purchased exposes ∧
      productExposureScore G purchased exposes ≤ G.nodes.length := by
  constructor
  · simpa using countP_le_exposureLoop G purchased exposes G.nodes 0 0
  · simpa using exposureLoop_le G purchased exposes G.nodes 0 0

/-- C10: `compute_avg_marginal_gain` divides the averaged marginal gain
by the candidate's cost with no guard: at cost 0 it raises
`ZeroDivisionError` (embedded as `none`) for every graph, seed set,
candidate, iteration count and draw sequence, instead of returning a
value. -/
theorem computeAvgMarginalGain_zero_cost_fault (G : Network) (S : Finset ℕ)
    (v : ℕ) (iterations : ℕ) (e1 e2 : ℕ → ℕ → ℕ → Bool) :
    computeAvgMarginalGain G S v 0 iterations e1 e2 = none := by
  unfold computeAvgMarginalGain
  by_cases h : iterations = 0 <;> simp [h]

/-- C3 counterexample: on the constant series `[1, 1]` the source's
`normalize` computes `0 / 0` for every entry — the undefined pandas value
(embedded as `none`) — and does not return the zero series `[0, 0]` the
claim requires. -/
theorem normalize_constant_counterexample :
    normalize [1, 1] = none ∧ normalize [1, 1] ≠ some [0, 0] := by
  constructor
  · decide
  · decide

/-- C3 amended: `normalize` maps each entry to `(x - min) / (max - min)`
when `max ≠ min`; on a degenerate series with `max = min` every entry is
the undefined value `0 / 0` (NaN, embedded as `none`) — not 0. -/
theorem normalize_semantics :
    (∀ (xs : List ℚ) (mn mx : ℚ), xs.min? = some mn → xs.max? = some mx →
      mx ≠ mn → normalize xs = some (xs.map fun x => (x - mn) / (mx - mn))) ∧
    (∀ (xs : List ℚ) (mn mx : ℚ), xs.min? = some mn → xs.max? = some mx →
      mx = mn → normalize xs = none) := by
  constructor
  · intro xs mn mx hmn hmx hne
    unfold normalize
    rw [hmn, hmx]
    simp [hne]
  · intro xs mn mx hmn hmx heq
    unfold normalize
    rw [hmn, hmx]
    simp [heq]

/-- Witness for `normalize_semantics` at the series `[0, 2]` (regular)
and `[1, 1]` (degenerate). -/
theorem normalize_semantics_witness :
    normalize [0, 2] = some ([0, 2].map fun x => (x - 0) / (2 - 0)) ∧
      normalize [1, 1] = none :=
  ⟨normalize_semantics.1 [0, 2] 0 2 (by decide) (by decide) (by norm_num),
    normalize_semantics.2 [1, 1] 1 1 (by decide) (by decide) rfl⟩

/-- C2 counterexample: on a graph with the isolated node 1,
`buy_products` evaluates `prob = b / n` with `n = 0` and raises
`ZeroDivisionError` (embedded as `none`) — it does not return the
purchased set unchanged as the claim requires. -/
theorem buyProducts_isolated_counterexample :
    buyProducts ⟨[1], []⟩ ∅ zeroDraw = none ∧
      buyProducts ⟨[1], []⟩ ∅ zeroDraw ≠ some ∅ := by
  constructor
  · decide
  · decide

/-- C2 amended: `buy_products` has no guard for an isolated node: if any
node of the graph has an empty neighborhood the whole round faults with
`ZeroDivisionError` (embedded as `none`), for every purchased set and
every draw sequence; the round returns a result precisely when every
node of the graph has a neighbor. -/
theorem buyProducts_isolated_semantics :
    (∀ (G : Network) (purchased : Finset ℕ) (draws : ℕ → ℚ) (u : ℕ),
      u ∈ G.nodes → nbrs G u = ∅ → buyProducts G purchased draws = none) ∧
    (∀ (G : Network) (purchased : Finset ℕ) (draws : ℕ → ℚ),
      (∀ u ∈ G.nodes, nbrs G u ≠ ∅) → (buyProducts G purchased draws).isSome) := by
  constructor
  · intro G purchased draws u hu hiso
    unfold buyProducts
    rw [buyStep_none_of_isolated G purchased draws u hiso G.nodes 0 ∅ hu]
    rfl
  · intro G purchased draws h
    unfold buyProducts
    have := buyStep_isSome G purchased draws G.nodes h 0 ∅
    cases hb : buyStep G purchased draws G.nodes 0 ∅ with
    | none => rw [hb] at this; cases this
    | some np => simp [hb]

/-- Witness for `buyProducts_isolated_semantics`: the singleton graph with
no edges faults; the path graph (no isolated node) returns a result. -/
theorem buyProducts_isolated_semantics_witness :
    buyProducts ⟨[1], []⟩ {2} zeroDraw = none ∧
      (buyProducts pathNet {1} zeroDraw).isSome :=
  ⟨buyProducts_isolated_semantics.1 ⟨[1], []⟩ {2} zeroDraw 1 (by decide) (by decide),
    buyProducts_isolated_semantics.2 pathNet {1} zeroDraw (by decide)⟩

/-- C6: whenever `buy_products` returns a set it is a superset of the
input purchased set (the result is `new_purchases.union(purchased)`), and
the purchased set at round 0 is exactly the seed set. -/
theorem buyProducts_monotone_and_round_zero :
    (∀ (G : Network) (p : Finset ℕ) (draws : ℕ → ℚ) (s : Finset ℕ),
      buyProducts G p draws = some s → p ⊆ s) ∧
    (∀ (G : Network) (seed : Finset ℕ) (draws : ℕ → ℕ → ℚ),
      runRounds G seed draws 0 = some seed) := by
  constructor
  · intro G p draws s h
    unfold buyProducts at h
    cases hb : buyStep G p draws G.nodes 0 ∅ with
    | none => rw [hb] at h; cases h
    | some np =>
      rw [hb] at h
      have : np ∪ p = s := by simpa using h
      rw [← this]
      exact Finset.subset_union_right
  · intro G seed draws
    rfl

/-- Witness for `buyProducts_monotone_and_round_zero` on the path
scenario: `{1} ⊆ {1, 2, 3, 4}` and round 0 is the seed. -/
theorem buyProducts_monotone_and_round_zero_witness :
    ({1} : Finset ℕ) ⊆ {1, 2, 3, 4} ∧
      runRounds pathNet {1} zeroDraws 0 = some {1} :=
  ⟨buyProducts_monotone_and_round_zero.1 pathNet {1} zeroDraw {1, 2, 3, 4}
      buyProducts_path_round1,
    buyProducts_monotone_and_round_zero.2 pathNet {1} zeroDraws⟩

/-- C5 counterexample: under all-zero draws on the path 1–2–3–4 with seed
`{1}`, round 1 already converts every node (each node with a neighbor
has `p = b/n ≥ 0 = r`, including nodes with `b = 0`), so the purchased
set after round 1 is `{1, 2, 3, 4}`, not the claimed `{1, 2}`. -/
theorem path_round_one_counterexample :
    runRounds pathNet {1} zeroDraws 1 = some {1, 2, 3, 4} ∧
      runRounds pathNet {1} zeroDraws 1 ≠ some {1, 2} := by
  have h1 : runRounds pathNet {1} zeroDraws 1 = some {1, 2, 3, 4} := by
    have : runRounds pathNet {1} zeroDraws 1
        = buyProducts pathNet {1} zeroDraw := by rfl
    rw [this]
    exact buyProducts_path_round1
  refine ⟨h1, ?_⟩
  rw [h1]
  intro h
  exact absurd (Option.some.inj h) (by decide)

/-- C5 amended: under all-zero draws on the path 1–2–3–4 with seed `{1}`,
every node converts already in round 1 (a zero conversion probability
still satisfies `p ≥ r` when `r = 0`), and the purchased set is
`{1, 2, 3, 4}` after every round `t ≥ 1`. -/
theorem path_rounds_all_convert :
    ∀ t, 1 ≤ t → runRounds pathNet {1} zeroDraws t = some {1, 2, 3, 4} := by
  intro t
  induction t with
  | zero => intro h; cases h
  | succ n ih =>
    intro _
    by_cases hn : n = 0
    · subst hn
      have : runRounds pathNet {1} zeroDraws 1
          = buyProducts pathNet {1} zeroDraw := by rfl
      rw [this]
      exact buyProducts_path_round1
    · have h1 : 1 ≤ n := Nat.one_le_iff_ne_zero.mpr hn
      have hrec := ih h1
      show (runRounds pathNet {1} zeroDraws n).bind
          (fun p => buyProducts pathNet p (zeroDraws n)) = some {1, 2, 3, 4}
      rw [hrec]
      exact buyProducts_path_stable

/-- Witness for `path_rounds_all_convert` at round 3. -/
theorem path_rounds_all_convert_witness :
    runRounds pathNet {1} zeroDraws 3 = some {1, 2, 3, 4} :=
  path_rounds_all_convert 3 (by norm_num)

/-- A node of the list absent from the cost table makes the affordability
comprehension of `select_influencers` raise `KeyError`. -/
theorem filterAffordable_none_of_missing (costs : List (ℕ × ℚ)) (maxCost : ℚ) :
    ∀ (l : List ℕ) (v : ℕ), v ∈ l → lookupCost costs v = none →
      filterAffordable costs maxCost l = none := by
  intro l
  induction l with
  | nil => intro v hv; cases hv
  | cons w rest ih =>
    intro v hv hmiss
    rcases List.mem_cons.mp hv with h | h
    · subst h
      simp [filterAffordable, hmiss]
    · cases hw : lookupCost costs w with
      | none => simp [filterAffordable, hw]
      | some c => simp [filterAffordable, hw, ih v h hmiss]

/-- A candidate absent from the cost table makes the inner scan of the
greedy loop raise `KeyError` (for any running best). -/
theorem bestCandidate_none_of_missing (gain : Finset ℕ → ℕ → ℚ)
    (costs : List (ℕ × ℚ)) (budget total : ℚ) (S : Finset ℕ) :
    ∀ (infl : List ℕ) (cur : Option (ℕ × ℚ × ℚ)) (v : ℕ), v ∈ infl →
      lookupCost costs v = none →
      bestCandidate gain costs budget total S infl cur = none := by
  intro infl
  induction infl with
  | nil => intro cur v hv; cases hv
  | cons w rest ih =>
    intro cur v hv hmiss
    rcases List.mem_cons.mp hv with h | h
    · subst h
      simp [bestCandidate, hmiss]
    · cases hw : lookupCost costs w with
      | none => simp [bestCandidate, hw]
      | some c =>
        by_cases haff : total + c ≤ budget
        · cases cur with
          | none => simp [bestCandidate, hw, haff, ih _ v h hmiss]
          | some b =>
            obtain ⟨bv, bc, bg⟩ := b
            by_cases hg : bg < gain S w <;>
              simp [bestCandidate, hw, haff, hg, ih _ v h hmiss]
        · cases cur <;> simp [bestCandidate, hw, haff, ih _ v h hmiss]

/-- C4 counterexample: node 2 is absent from the cost table `[(1, 5)]`,
and the affordability filter of `select_influencers` raises `KeyError`
(embedded as `none`); likewise the greedy budget check raises `KeyError`
for candidate 1 absent from the empty cost table — absence is not
treated as cost 0 in these operations. -/
theorem missing_cost_counterexample :
    selectInfluencers [1, 2] [0, 1] [0, 1] [0, 1] [(1, 5)] 10 100 = none ∧
      greedyInfluencerSelection (fun _ _ => 0) [] 10 [1] = none := by
  constructor
  · decide
  · decide

/-- C4 amended: only the total-cost computation `get_influencers_cost`
treats an influencer absent from the cost table as free (contributing 0,
never an error); the affordability filter of `select_influencers` and
the budget check of the greedy loop instead raise `KeyError` (embedded
as `none`) as soon as any candidate is absent from the table. -/
theorem missing_cost_semantics :
    (∀ (costs : List (ℕ × ℚ)) (v : ℕ) (infl : List ℕ),
      lookupCost costs v = none →
      getInfluencersCost costs (v :: infl) = getInfluencersCost costs infl) ∧
    (∀ (costs : List (ℕ × ℚ)) (maxCost : ℚ) (infl : List ℕ) (v : ℕ),
      v ∈ infl → lookupCost costs v = none →
      filterAffordable costs maxCost infl = none) ∧
    (∀ (gain : Finset ℕ → ℕ → ℚ) (costs : List (ℕ × ℚ)) (budget : ℚ)
      (fuel : ℕ) (S : Finset ℕ) (total : ℚ) (infl : List ℕ) (v : ℕ),
      v ∈ infl → lookupCost costs v = none →
      greedyLoop gain costs budget (fuel + 1) S total infl = none) := by
  refine ⟨?_, ?_, ?_⟩
  · intro costs v infl hmiss
    simp [getInfluencersCost, hmiss]
  · intro costs maxCost infl v hv hmiss
    exact filterAffordable_none_of_missing costs maxCost infl v hv hmiss
  · intro gain costs budget fuel S total infl v hv hmiss
    show (match bestCandidate gain costs budget total S infl none with
      | none => none
      | some none => some S
      | some (some (v, c, _)) =>
          greedyLoop gain costs budget fuel (insert v S) (total + c) (infl.erase v))
      = none
    rw [bestCandidate_none_of_missing gain costs budget total S infl none v hv hmiss]

/-- Witness for `missing_cost_semantics`: influencer 2 is missing from
`[(1, 5)]`; it contributes 0 to the total cost but faults the filter and
the greedy loop. -/
theorem missing_cost_semantics_witness :
    getInfluencersCost [(1, 5)] [2, 1] = getInfluencersCost [(1, 5)] [1] ∧
      filterAffordable [(1, 5)] 100 [2] = none ∧
      greedyLoop (fun _ _ => 0) [(1, 5)] 1000 1 ∅ 0 [2] = none :=
  ⟨missing_cost_semantics.1 [(1, 5)] 2 [1] (by decide),
    missing_cost_semantics.2.1 [(1, 5)] 100 [2] 2 (by decide) (by decide),
    missing_cost_semantics.2.2 (fun _ _ => 0) [(1, 5)] 1000 0 ∅ 0 [2] 2
      (by decide) (by decide)⟩

/-- The pair-level affordability filter keeps a sublist of its input. -/
theorem filterAffordablePairs_sublist (costs : List (ℕ × ℚ)) (maxCost : ℚ) :
    ∀ (l l' : List (ℕ × ℚ)), filterAffordablePairs costs maxCost l = some l' →
      List.Sublist l' l := by
  intro l
  induction l with
  | nil =>
    intro l' h
    simp only [filterAffordablePairs] at h
    rw [← Option.some.inj h]
  | cons p rest ih =>
    intro l' h
    simp only [filterAffordablePairs] at h
    cases hp : lookupCost costs p.1 with
    | none => rw [hp] at h; cases h
    | some c =>
      rw [hp] at h
      cases hrec : filterAffordablePairs costs maxCost rest with
      | none => rw [hrec] at h; cases h
      | some l'' =>
        rw [hrec] at h
        have hl' : l' = if c ≤ maxCost then p :: l'' else l'' := by
          simpa using h.symm
        by_cases hc : c ≤ maxCost
        · rw [hl', if_pos hc]
          exact (ih l'' hrec).cons₂ p
        · rw [hl', if_neg hc]
          exact (ih l'' hrec).cons p

/-- Every node surviving the affordability filter has a table cost at
most `max_cost`. -/
theorem filterAffordable_mem_cost (costs : List (ℕ × ℚ)) (maxCost : ℚ) :
    ∀ (l aff : List ℕ), filterAffordable costs maxCost l = some aff →
      ∀ v ∈ aff, ∃ c, lookupCost costs v = some c ∧ c ≤ maxCost := by
  intro l
  induction l with
  | nil =>
    intro aff h
    simp only [filterAffordable] at h
    rw [← Option.some.inj h]
    intro v hv
    cases hv
  | cons w rest ih =>
    intro aff h
    simp only [filterAffordable] at h
    cases hw : lookupCost costs w with
    | none => rw [hw] at h; cases h
    | some c =>
      rw [hw] at h
      cases hrec : filterAffordable costs maxCost rest with
      | none => rw [hrec] at h; cases h
      | some aff' =>
        rw [hrec] at h
        have haff : aff = if c ≤ maxCost then w :: aff' else aff' := by
          simpa using h.symm
        intro v hv
        by_cases hc : c ≤ maxCost
        · rw [haff, if_pos hc] at hv
          rcases List.mem_cons.mp hv with h1 | h1
          · subst h1; exact ⟨c, hw, hc⟩
          · exact ih aff' hrec v h1
        · rw [haff, if_neg hc] at hv
          exact ih aff' hrec v hv

/-- The node-level filter of the source is the pair-level filter with the
scores forgotten. -/
theorem filterAffordable_map_fst (costs : List (ℕ × ℚ)) (maxCost : ℚ) :
    ∀ l : List (ℕ × ℚ),
      filterAffordable costs maxCost (l.map Prod.fst) =
        (filterAffordablePairs costs maxCost l).map (List.map Prod.fst) := by
  intro l
  induction l with
  | nil => rfl
  | cons p rest ih =>
    simp only [List.map_cons, filterAffordable, filterAffordablePairs]
    cases hp : lookupCost costs p.1 with
    | none => rfl
    | some c =>
      rw [ih]
      cases hrec : filterAffordablePairs costs maxCost rest with
      | none => rfl
      | some l'' =>
        by_cases hc : c ≤ maxCost <;> simp [hc]

/-- C8: whenever `select_influencers` returns a candidate list, the list
has length at most `top_n`, every returned node has table cost at most
`max_cost`, and the list is ordered non-increasingly by the composite
centrality score (witnessed by the score-carrying run of the same
pipeline, whose first components give the returned list and whose scores
are pairwise non-increasing). -/
theorem selectInfluencers_sound (nodes : List ℕ) (deg bet clo : List ℚ)
    (costs : List (ℕ × ℚ)) (topN : ℕ) (maxCost : ℚ) (res : List ℕ)
    (h : selectInfluencers nodes deg bet clo costs topN maxCost = some res) :
    res.length ≤ topN ∧
      (∀ v ∈ res, ∃ c, lookupCost costs v = some c ∧ c ≤ maxCost) ∧
      ∃ prs, selectInfluencersPairs nodes deg bet clo costs topN maxCost = some prs ∧
        res = prs.map Prod.fst ∧
        List.Pairwise (fun p q : ℕ × ℚ => q.2 ≤ p.2) prs := by
  unfold selectInfluencers at h
  cases hcwc : computeWeightedCentrality 0.4 0.4 0.2 nodes deg bet clo with
  | none => rw [hcwc] at h; cases h
  | some wc =>
    rw [hcwc] at h
    simp only [Option.some_bind] at h
    rw [filterAffordable_map_fst] at h
    cases hfp : filterAffordablePairs costs maxCost wc with
    | none => rw [hfp] at h; cases h
    | some pl =>
      rw [hfp] at h
      have hres : res = (pl.map Prod.fst).take topN := by simpa using h.symm
      have hsorted : List.Pairwise (fun p q : ℕ × ℚ => q.2 ≤ p.2) wc := by
        unfold computeWeightedCentrality at hcwc
        cases hdn : normalize deg with
        | none => rw [hdn] at hcwc; cases hcwc
        | some dn =>
          rw [hdn] at hcwc
          cases hbn : normalize bet with
          | none => rw [hbn] at hcwc; cases hcwc
          | some bn =>
            rw [hbn] at hcwc
            cases hcn : normalize clo with
            | none => rw [hcn] at hcwc; cases hcwc
            | some cn =>
              rw [hcn] at hcwc
              simp only [Option.some_bind, Option.some.injEq] at hcwc
              rw [← hcwc]
              exact List.sorted_insertionSort (fun p q : ℕ × ℚ => q.2 ≤ p.2) _
      refine ⟨?_, ?_, pl.take topN, ?_, ?_, ?_⟩
      · rw [hres, List.length_take]
        exact min_le_left _ _
      · intro v hv
        rw [hres] at hv
        have hv' : v ∈ pl.map Prod.fst := List.take_subset _ _ hv
        have hfa : filterAffordable costs maxCost (wc.map Prod.fst)
            = some (pl.map Prod.fst) := by
          rw [filterAffordable_map_fst, hfp]
          rfl
        exact filterAffordable_mem_cost costs maxCost (wc.map Prod.fst)
          (pl.map Prod.fst) hfa v hv'
      · unfold selectInfluencersPairs
        rw [hcwc]
        simp only [Option.some_bind]
        rw [hfp]
        rfl
      · rw [hres, List.map_take]
      · exact List.Pairwise.sublist ((List.take_sublist topN pl).trans
          (filterAffordablePairs_sublist costs maxCost wc pl hfp)) hsorted

/-- Witness for `selectInfluencers_sound` on a two-node instance: node 2
scores 1, node 1 scores 0, both affordable, so the returned list is
`[2, 1]` with descending scores. -/
theorem selectInfluencers_sound_witness :
    ([2, 1] : List ℕ).length ≤ 10 ∧
      (∀ v ∈ ([2, 1] : List ℕ), ∃ c, lookupCost [(1, 5), (2, 7)] v = some c ∧ c ≤ 100) ∧
      ∃ prs, selectInfluencersPairs [1, 2] [0, 1] [0, 1] [0, 1] [(1, 5), (2, 7)] 10 100
          = some prs ∧
        ([2, 1] : List ℕ) = prs.map Prod.fst ∧
        List.Pairwise (fun p q : ℕ × ℚ => q.2 ≤ p.2) prs :=
  selectInfluencers_sound [1, 2] [0, 1] [0, 1] [0, 1] [(1, 5), (2, 7)] 10 100 [2, 1]
    (by decide)

/-- When no remaining candidate is affordable, the inner scan leaves the
running best unchanged. -/
theorem bestCandidate_skip (gain : Finset ℕ → ℕ → ℚ) (costs : List (ℕ × ℚ))
    (budget total : ℚ) (S : Finset ℕ) :
    ∀ (infl : List ℕ) (cur : Option (ℕ × ℚ × ℚ)),
      (∀ v ∈ infl, (lookupCost costs v).isSome) →
      (∀ v ∈ infl, ∀ c, lookupCost costs v = some c → ¬(total + c ≤ budget)) →
      bestCandidate gain costs budget total S infl cur = some cur := by
  intro infl
  induction infl with
  | nil => intro cur _ _; rfl
  | cons w rest ih =>
    intro cur hcov hna
    obtain ⟨cw, hcw⟩ := Option.isSome_iff_exists.mp (hcov w (List.mem_cons_self w rest))
    have hnaw : ¬(total + cw ≤ budget) := hna w (List.mem_cons_self w rest) cw hcw
    simp only [bestCandidate, hcw]
    rw [if_neg hnaw]
    exact ih cur (fun v hv => hcov v (List.mem_cons_of_mem w hv))
      (fun v hv => hna v (List.mem_cons_of_mem w hv))

/-- Once the running best is set, the scan ends with some best (under a
covering cost table). -/
theorem bestCandidate_progress (gain : Finset ℕ → ℕ → ℚ) (costs : List (ℕ × ℚ))
    (budget total : ℚ) (S : Finset ℕ) :
    ∀ (infl : List ℕ),
      (∀ v ∈ infl, (lookupCost costs v).isSome) →
      ∀ b : ℕ × ℚ × ℚ, ∃ r,
        bestCandidate gain costs budget total S infl (some b) = some (some r) := by
  intro infl
  induction infl with
  | nil => intro _ b; exact ⟨b, rfl⟩
  | cons w rest ih =>
    intro hcov b
    obtain ⟨bv, bc, bg⟩ := b
    obtain ⟨cw, hcw⟩ := Option.isSome_iff_exists.mp (hcov w (List.mem_cons_self w rest))
    have hcovr : ∀ v ∈ rest, (lookupCost costs v).isSome :=
      fun v hv => hcov v (List.mem_cons_of_mem w hv)
    by_cases haff : total + cw ≤ budget
    · by_cases hlt : bg < gain S w
      · obtain ⟨r, hr⟩ := ih hcovr (w, cw, gain S w)
        refine ⟨r, ?_⟩
        simp only [bestCandidate, hcw]
        rw [if_pos haff, if_pos hlt]
        exact hr
      · obtain ⟨r, hr⟩ := ih hcovr (bv, bc, bg)
        refine ⟨r, ?_⟩
        simp only [bestCandidate, hcw]
        rw [if_pos haff, if_neg hlt]
        exact hr
    · obtain ⟨r, hr⟩ := ih hcovr (bv, bc, bg)
      refine ⟨r, ?_⟩
      simp only [bestCandidate, hcw]
      rw [if_neg haff]
      exact hr

/-- When some candidate is affordable, the inner scan commits to some
best candidate (under a covering cost table). -/
theorem bestCandidate_exists_affordable (gain : Finset ℕ → ℕ → ℚ)
    (costs : List (ℕ × ℚ)) (budget total : ℚ) (S : Finset ℕ) :
    ∀ (infl : List ℕ),
      (∀ v ∈ infl, (lookupCost costs v).isSome) →
      (∃ v ∈ infl, ∃ c, lookupCost costs v = some c ∧ total + c ≤ budget) →
      ∃ r, bestCandidate gain costs budget total S infl none = some (some r) := by
  intro infl
  induction infl with
  | nil =>
    intro _ hex
    obtain ⟨v, hv, _⟩ := hex
    cases hv
  | cons w rest ih =>
    intro hcov hex
    obtain ⟨cw, hcw⟩ := Option.isSome_iff_exists.mp (hcov w (List.mem_cons_self w rest))
    have hcovr : ∀ v ∈ rest, (lookupCost costs v).isSome :=
      fun v hv => hcov v (List.mem_cons_of_mem w hv)
    by_cases haff : total + cw ≤ budget
    · obtain ⟨r, hr⟩ := bestCandidate_progress gain costs budget total S rest hcovr
        (w, cw, gain S w)
      refine ⟨r, ?_⟩
      simp only [bestCandidate, hcw]
      rw [if_pos haff]
      exact hr
    · obtain ⟨v, hv, c, hc, hcaff⟩ := hex
      have hvrest : v ∈ rest := by
        rcases List.mem_cons.mp hv with h | h
        · subst h
          rw [hcw] at hc
          exact absurd hcaff (by simpa [Option.some.inj hc] using haff)
        · exact h
      obtain ⟨r, hr⟩ := ih hcovr ⟨v, hvrest, c, hc, hcaff⟩
      refine ⟨r, ?_⟩
      simp only [bestCandidate, hcw]
      rw [if_neg haff]
      exact hr

/-- Characterization of the inner scan relative to a running best: the
final best dominates every affordable candidate, dominates the running
best, and is either the running best itself or a strict improvement that
is the first candidate attaining the final value. -/
theorem bestCandidate_spec_cur (gain : Finset ℕ → ℕ → ℚ) (costs : List (ℕ × ℚ))
    (budget total : ℚ) (S : Finset ℕ) :
    ∀ (infl : List ℕ) (bv v : ℕ) (bc bg c g : ℚ),
      (∀ u ∈ infl, (lookupCost costs u).isSome) →
      bestCandidate gain costs budget total S infl (some (bv, bc, bg))
          = some (some (v, c, g)) →
      (∀ u cu, u ∈ infl → lookupCost costs u = some cu → total + cu ≤ budget →
          gain S u ≤ g) ∧
        bg ≤ g ∧
        ((v = bv ∧ c = bc ∧ g = bg) ∨
          (bg < g ∧ g = gain S v ∧ lookupCost costs v = some c ∧
            total + c ≤ budget ∧
            ∃ l1 l2, infl = l1 ++ v :: l2 ∧
              ∀ u cu, u ∈ l1 → lookupCost costs u = some cu →
                total + cu ≤ budget → gain S u < g)) := by
  intro infl
  induction infl with
  | nil =>
    intro bv v bc bg c g _ h
    obtain ⟨h1, h2, h3⟩ : v = bv ∧ c = bc ∧ g = bg := by
      have := Option.some.inj (Option.some.inj h)
      simpa [Prod.ext_iff] using this.symm
    subst h1; subst h2; subst h3
    exact ⟨fun u cu hu => absurd hu (List.not_mem_nil u), le_refl _,
      Or.inl ⟨rfl, rfl, rfl⟩⟩
  | cons w rest ih =>
    intro bv v bc bg c g hcov h
    obtain ⟨cw, hcw⟩ := Option.isSome_iff_exists.mp (hcov w (List.mem_cons_self w rest))
    have hcovr : ∀ u ∈ rest, (lookupCost costs u).isSome :=
      fun u hu => hcov u (List.mem_cons_of_mem w hu)
    simp only [bestCandidate, hcw] at h
    by_cases haff : total + cw ≤ budget
    · rw [if_pos haff] at h
      by_cases hlt : bg < gain S w
      · rw [if_pos hlt] at h
        obtain ⟨M, hge, D⟩ := ih w v cw (gain S w) c g hcovr h
        refine ⟨?_, le_of_lt (lt_of_lt_of_le hlt hge), ?_⟩
        · intro u cu hu hcu hcua
          rcases List.mem_cons.mp hu with h1 | h1
          · subst h1
            exact hge
          · exact M u cu h1 hcu hcua
        · rcases D with ⟨hv, hc, hg⟩ | ⟨hbglt, hgv, hlk, hafv, l1, l2, hdec, hl1⟩
          · subst hv; subst hc; subst hg
            exact Or.inr ⟨hlt, rfl, hcw, haff, [], rest, rfl,
              fun u cu hu => absurd hu (List.not_mem_nil u)⟩
          · refine Or.inr ⟨lt_trans hlt hbglt, hgv, hlk, hafv, w :: l1, l2,
              by rw [hdec]; rfl, ?_⟩
            intro u cu hu hcu hcua
            rcases List.mem_cons.mp hu with h1 | h1
            · subst h1
              exact hbglt
            · exact hl1 u cu h1 hcu hcua
      · rw [if_neg hlt] at h
        obtain ⟨M, hge, D⟩ := ih bv v bc bg c g hcovr h
        have hwle : gain S w ≤ bg := not_lt.mp hlt
        refine ⟨?_, hge, ?_⟩
        · intro u cu hu hcu hcua
          rcases List.mem_cons.mp hu with h1 | h1
          · subst h1
            exact le_trans hwle hge
          · exact M u cu h1 hcu hcua
        · rcases D with hD | ⟨hbglt, hgv, hlk, hafv, l1, l2, hdec, hl1⟩
          · exact Or.inl hD
          · refine Or.inr ⟨hbglt, hgv, hlk, hafv, w :: l1, l2,
              by rw [hdec]; rfl, ?_⟩
            intro u cu hu hcu hcua
            rcases List.mem_cons.mp hu with h1 | h1
            · subst h1
              exact lt_of_le_of_lt hwle hbglt
            · exact hl1 u cu h1 hcu hcua
    · rw [if_neg haff] at h
      obtain ⟨M, hge, D⟩ := ih bv v bc bg c g hcovr h
      refine ⟨?_, hge, ?_⟩
      · intro u cu hu hcu hcua
        rcases List.mem_cons.mp hu with h1 | h1
        · subst h1
          rw [hcw] at hcu
          exact absurd hcua (by simpa [← Option.some.inj hcu] using haff)
        · exact M u cu h1 hcu hcua
      · rcases D with hD | ⟨hbglt, hgv, hlk, hafv, l1, l2, hdec, hl1⟩
        · exact Or.inl hD
        · refine Or.inr ⟨hbglt, hgv, hlk, hafv, w :: l1, l2,
            by rw [hdec]; rfl, ?_⟩
          intro u cu hu hcu hcua
          rcases List.mem_cons.mp hu with h1 | h1
          · subst h1
            rw [hcw] at hcu
            exact absurd hcua (by simpa [← Option.some.inj hcu] using haff)
          · exact hl1 u cu h1 hcu hcua

/-- Characterization of the inner scan from an empty running best: the
committed candidate is a member, is affordable, carries its table cost
and its estimated gain, dominates every affordable candidate, and is the
first candidate attaining the final value (every affordable candidate
strictly earlier in iteration order has strictly smaller gain). -/
theorem bestCandidate_spec (gain : Finset ℕ → ℕ → ℚ) (costs : List (ℕ × ℚ))
    (budget total : ℚ) (S : Finset ℕ) :
    ∀ (infl : List ℕ) (v : ℕ) (c g : ℚ),
      (∀ u ∈ infl, (lookupCost costs u).isSome) →
      bestCandidate gain costs budget total S infl none = some (some (v, c, g)) →
      v ∈ infl ∧ lookupCost costs v = some c ∧ total + c ≤ budget ∧
        g = gain S v ∧
        (∀ u cu, u ∈ infl → lookupCost costs u = some cu → total + cu ≤ budget →
          gain S u ≤ g) ∧
        ∃ l1 l2, infl = l1 ++ v :: l2 ∧
          ∀ u cu, u ∈ l1 → lookupCost costs u = some cu → total + cu ≤ budget →
            gain S u < g := by
  intro infl
  induction infl with
  | nil =>
    intro v c g _ h
    cases Option.some.inj h
  | cons w rest ih =>
    intro v c g hcov h
    obtain ⟨cw, hcw⟩ := Option.isSome_iff_exists.mp (hcov w (List.mem_cons_self w rest))
    have hcovr : ∀ u ∈ rest, (lookupCost costs u).isSome :=
      fun u hu => hcov u (List.mem_cons_of_mem w hu)
    simp only [bestCandidate, hcw] at h
    by_cases haff : total + cw ≤ budget
    · rw [if_pos haff] at h
      obtain ⟨M, hge, D⟩ :=
        bestCandidate_spec_cur gain costs budget total S rest w v cw (gain S w)
          c g hcovr h
      rcases D with ⟨hv, hc, hg⟩ | ⟨hbglt, hgv, hlk, hafv, l1, l2, hdec, hl1⟩
      · subst hv; subst hc; subst hg
        refine ⟨List.mem_cons_self v rest, hcw, haff, rfl, ?_,
          [], rest, rfl, fun u cu hu => absurd hu (List.not_mem_nil u)⟩
        intro u cu hu hcu hcua
        rcases List.mem_cons.mp hu with h1 | h1
        · subst h1
          exact le_refl _
        · exact M u cu h1 hcu hcua
      · have hvrest : v ∈ rest := by
          rw [hdec]
          exact List.mem_append_right l1 (List.mem_cons_self v l2)
        refine ⟨List.mem_cons_of_mem w hvrest, hlk, hafv, hgv, ?_,
          w :: l1, l2, by rw [hdec]; rfl, ?_⟩
        · intro u cu hu hcu hcua
          rcases List.mem_cons.mp hu with h1 | h1
          · subst h1
            exact le_of_lt hbglt
          · exact M u cu h1 hcu hcua
        · intro u cu hu hcu hcua
          rcases List.mem_cons.mp hu with h1 | h1
          · subst h1
            exact hbglt
          · exact hl1 u cu h1 hcu hcua
    · rw [if_neg haff] at h
      obtain ⟨hvmem, hlk, hafv, hgv, M, l1, l2, hdec, hl1⟩ := ih v c g hcovr h
      refine ⟨List.mem_cons_of_mem w hvmem, hlk, hafv, hgv, ?_,
        w :: l1, l2, by rw [hdec]; rfl, ?_⟩
      · intro u cu hu hcu hcua
        rcases List.mem_cons.mp hu with h1 | h1
        · subst h1
          rw [hcw] at hcu
          exact absurd hcua (by simpa [← Option.some.inj hcu] using haff)
        · exact M u cu h1 hcu hcua
      · intro u cu hu hcu hcua
        rcases List.mem_cons.mp hu with h1 | h1
        · subst h1
          rw [hcw] at hcu
          exact absurd hcua (by simpa [← Option.some.inj hcu] using haff)
        · exact hl1 u cu h1 hcu hcua

/-- Evaluation of the greedy selection on the single zero-gain candidate
1 of cost 5 within budget: the candidate is committed. -/
theorem greedy_single_eval :
    greedyInfluencerSelection (fun _ _ => 0) [(1, 5)] 1000 [1] = some {1} :=
  option_eq_some_of_getD _ _ (by decide) (by decide)

/-- C1 counterexample: with a single affordable candidate of cost 5 whose
estimated normalized gain is 0 (not strictly positive), the greedy loop
still commits it (`best_v is None or ...` adopts the first affordable
candidate regardless of its value): the result is `{1}`, not the empty
seed set the claim requires. -/
theorem greedy_zero_gain_counterexample :
    greedyInfluencerSelection (fun _ _ => 0) [(1, 5)] 1000 [1] = some {1} ∧
      greedyInfluencerSelection (fun _ _ => 0) [(1, 5)] 1000 [1] ≠ some ∅ := by
  refine ⟨greedy_single_eval, ?_⟩
  rw [greedy_single_eval]
  intro h
  exact absurd (Option.some.inj h) (by decide)

/-- C1 amended: with a cost table covering the candidates, one iteration
of the greedy loop (i) terminates with `S` unchanged precisely when no
remaining affordable candidate exists — regardless of gain signs; (ii)
whenever some affordable candidate remains, the scan commits to some
candidate (even when every gain is zero or negative); and (iii) the
committed candidate is affordable, carries its estimated gain, has the
largest gain among affordable candidates with ties resolved by
first-encountered iteration order (every affordable candidate strictly
earlier has strictly smaller gain), and the loop continues having added
it to `S`, spent its cost, and removed it from the pool. -/
theorem greedy_commit_characterization (gain : Finset ℕ → ℕ → ℚ)
    (costs : List (ℕ × ℚ)) (budget : ℚ) (S : Finset ℕ) (total : ℚ)
    (infl : List ℕ) (fuel : ℕ)
    (hcov : ∀ v ∈ infl, (lookupCost costs v).isSome) :
    ((∀ v ∈ infl, ∀ c, lookupCost costs v = some c → ¬(total + c ≤ budget)) →
      greedyLoop gain costs budget (fuel + 1) S total infl = some S) ∧
    ((∃ v ∈ infl, ∃ c, lookupCost costs v = some c ∧ total + c ≤ budget) →
      ∃ v c g, bestCandidate gain costs budget total S infl none
        = some (some (v, c, g))) ∧
    (∀ v c g, bestCandidate gain costs budget total S infl none
        = some (some (v, c, g)) →
      v ∈ infl ∧ lookupCost costs v = some c ∧ total + c ≤ budget ∧
        g = gain S v ∧
        (∀ u cu, u ∈ infl → lookupCost costs u = some cu →
          total + cu ≤ budget → gain S u ≤ g) ∧
        (∃ l1 l2, infl = l1 ++ v :: l2 ∧
          ∀ u cu, u ∈ l1 → lookupCost costs u = some cu →
            total + cu ≤ budget → gain S u < g) ∧
        greedyLoop gain costs budget (fuel + 1) S total infl
          = greedyLoop gain costs budget fuel (insert v S) (total + c)
              (infl.erase v)) := by
  refine ⟨?_, ?_, ?_⟩
  · intro hna
    have hbc := bestCandidate_skip gain costs budget total S infl none hcov hna
    simp only [greedyLoop]
    rw [hbc]
  · intro hex
    obtain ⟨r, hr⟩ :=
      bestCandidate_exists_affordable gain costs budget total S infl hcov hex
    obtain ⟨v, c, g⟩ := r
    exact ⟨v, c, g, hr⟩
  · intro v c g hbc
    obtain ⟨h1, h2, h3, h4, h5, h6⟩ :=
      bestCandidate_spec gain costs budget total S infl v c g hcov hbc
    refine ⟨h1, h2, h3, h4, h5, h6, ?_⟩
    simp only [greedyLoop]
    rw [hbc]

/-- Witness for `greedy_commit_characterization`: with total already over
budget the loop stops with `S = ∅` unchanged; with budget available the
scan commits to some candidate even though its gain is 0. -/
theorem greedy_commit_characterization_witness :
    greedyLoop (fun _ _ => (0 : ℚ)) [(1, 5)] 1000 1 ∅ 2000 [1] = some ∅ ∧
      ∃ v c g, bestCandidate (fun _ _ => (0 : ℚ)) [(1, 5)] 1000 0 ∅ [1] none
        = some (some (v, c, g)) :=
  ⟨(greedy_commit_characterization (fun _ _ => 0) [(1, 5)] 1000 ∅ 2000 [1] 0
      (by decide)).1
      (by
        intro v hv c hc
        simp only [List.mem_singleton] at hv
        subst hv
        simp only [lookupCost, if_pos] at hc
        rw [← Option.some.inj hc]
        norm_num),
    (greedy_commit_characterization (fun _ _ => 0) [(1, 5)] 1000 ∅ 0 [1] 0
      (by decide)).2.1 ⟨1, by decide, 5, by decide, by norm_num⟩⟩

/-- Invariant of the greedy loop: starting within budget with positive
table costs for all candidates, the loop only grows `S` with candidates
from the pool, never exceeds the budget with the costs of the added
nodes, adds at most `|influencers|` nodes, and its result is unchanged
by any sufficient fuel (each committing iteration removes one
candidate). -/
theorem greedyLoop_invariant (gain : Finset ℕ → ℕ → ℚ) (costs : List (ℕ × ℚ))
    (budget : ℚ) :
    ∀ (fuel : ℕ) (infl : List ℕ) (S : Finset ℕ) (total : ℚ),
      infl.length < fuel →
      (∀ v ∈ infl, ∃ c, lookupCost costs v = some c ∧ 0 < c) →
      total ≤ budget →
      ∀ Sfin, greedyLoop gain costs budget fuel S total infl = some Sfin →
        S ⊆ Sfin ∧ (∀ v ∈ Sfin, v ∈ S ∨ v ∈ infl) ∧
          costSum costs (Sfin \ S) + total ≤ budget ∧
          (Sfin \ S).card ≤ infl.length ∧
          ∀ fuel2, infl.length < fuel2 →
            greedyLoop gain costs budget fuel2 S total infl = some Sfin := by
  intro fuel
  induction fuel with
  | zero =>
    intro infl S total hlen
    exact absurd hlen (Nat.not_lt_zero _)
  | succ f ih =>
    intro infl S total hlen hpos htot Sfin h
    have hcov : ∀ u ∈ infl, (lookupCost costs u).isSome := by
      intro u hu
      obtain ⟨cu, hcu, _⟩ := hpos u hu
      rw [hcu]
      rfl
    simp only [greedyLoop] at h
    cases hbc : bestCandidate gain costs budget total S infl none with
    | none => rw [hbc] at h; cases h
    | some b =>
      cases b with
      | none =>
        rw [hbc] at h
        have hS : Sfin = S := (Option.some.inj h).symm
        subst hS
        refine ⟨Finset.Subset.refl Sfin, fun v hv => Or.inl hv, ?_, ?_, ?_⟩
        · rw [Finset.sdiff_self]
          simpa [costSum] using htot
        · simp [Finset.sdiff_self]
        · intro fuel2 hf2
          cases fuel2 with
          | zero => exact absurd hf2 (Nat.not_lt_zero _)
          | succ f2 =>
            simp only [greedyLoop]
            rw [hbc]
      | some r =>
        obtain ⟨v, c, g⟩ := r
        rw [hbc] at h
        obtain ⟨hvmem, hlk, hafford, -, -, -⟩ :=
          bestCandidate_spec gain costs budget total S infl v c g hcov hbc
        have hcpos : 0 < c := by
          obtain ⟨c2, hc2, hc2pos⟩ := hpos v hvmem
          rw [hlk] at hc2
          exact (Option.some.inj hc2) ▸ hc2pos
        have hlen1 : 1 ≤ infl.length := by
          cases infl with
          | nil => cases hvmem
          | cons a l => simp
        have herlen : (infl.erase v).length = infl.length - 1 :=
          List.length_erase_of_mem hvmem
        have hlen2 : (infl.erase v).length < f := by omega
        have hposr : ∀ u ∈ infl.erase v,
            ∃ c2, lookupCost costs u = some c2 ∧ 0 < c2 :=
          fun u hu => hpos u (List.mem_of_mem_erase hu)
        obtain ⟨hsub, hmem, hcost, hcard, hstable⟩ :=
          ih (infl.erase v) (insert v S) (total + c) hlen2 hposr hafford Sfin h
        have hbudget_card : costSum costs (Sfin \ S) + total ≤ budget ∧
            (Sfin \ S).card ≤ infl.length := by
          by_cases hvS : v ∈ S
          · have hins : insert v S = S := Finset.insert_eq_self.mpr hvS
            rw [hins] at hcost hcard
            constructor
            · linarith
            · omega
          · have hvSfin : v ∈ Sfin := hsub (Finset.mem_insert_self v S)
            have hsplit : Sfin \ S = insert v (Sfin \ insert v S) := by
              ext u
              simp only [Finset.mem_sdiff, Finset.mem_insert]
              constructor
              · rintro ⟨huSfin, huS⟩
                by_cases huv : u = v
                · exact Or.inl huv
                · exact Or.inr ⟨huSfin, fun hor => hor.elim huv huS⟩
              · rintro (huv | ⟨huSfin, hunin⟩)
                · exact huv ▸ ⟨hvSfin, hvS⟩
                · exact ⟨huSfin, fun huS => hunin (Or.inr huS)⟩
            have hvnot : v ∉ Sfin \ insert v S := by
              simp [Finset.mem_sdiff]
            constructor
            · rw [hsplit]
              simp only [costSum] at hcost ⊢
              rw [Finset.sum_insert hvnot, hlk]
              simp only [Option.getD_some]
              linarith
            · rw [hsplit, Finset.card_insert_of_not_mem hvnot]
              omega
        refine ⟨?_, ?_, hbudget_card.1, hbudget_card.2, ?_⟩
        · exact fun u hu => hsub (Finset.mem_insert_of_mem hu)
        · intro u hu
          rcases hmem u hu with h1 | h1
          · rcases Finset.mem_insert.mp h1 with h2 | h2
            · exact Or.inr (h2 ▸ hvmem)
            · exact Or.inl h2
          · exact Or.inr (List.mem_of_mem_erase h1)
        · intro fuel2 hf2
          cases fuel2 with
          | zero => exact absurd hf2 (Nat.not_lt_zero _)
          | succ f2 =>
            have hf2e : (infl.erase v).length < f2 := by omega
            simp only [greedyLoop]
            rw [hbc]
            exact hstable f2 hf2e

/-- C7 counterexample: for the (degenerate) negative budget −1 with no
candidates, the greedy selection returns the empty seed set whose total
cost 0 exceeds the budget — the claimed invariant `cost(S) ≤ budget`
fails for a negative budget already at the initial step. -/
theorem greedy_negative_budget_counterexample :
    greedyInfluencerSelection (fun _ _ => 0) [] (-1) [] = some ∅ ∧
      ¬(costSum [] ∅ ≤ -1) := by
  constructor
  · rfl
  · norm_num [costSum]

/-- C7 amended: for every nonnegative budget and cost table assigning
positive costs to the candidates, the seed set built by the greedy
selection has total cost within budget (hence so does every intermediate
seed set, each being a subset of the final one), is a subset of the
candidate list, and has at most `|candidates|` elements; moreover the
loop terminates within `|candidates|` committing rounds (any fuel beyond
`|candidates|` yields the same result). -/
theorem greedy_budget_invariants (gain : Finset ℕ → ℕ → ℚ)
    (costs : List (ℕ × ℚ)) (budget : ℚ) (infl : List ℕ)
    (hbudget : 0 ≤ budget)
    (hpos : ∀ v ∈ infl, ∃ c, lookupCost costs v = some c ∧ 0 < c)
    (Sfin : Finset ℕ)
    (h : greedyInfluencerSelection gain costs budget infl = some Sfin) :
    costSum costs Sfin ≤ budget ∧ (∀ T ⊆ Sfin, costSum costs T ≤ budget) ∧
      (∀ v ∈ Sfin, v ∈ infl) ∧ Sfin.card ≤ infl.length ∧
      ∀ fuel, infl.length < fuel →
        greedyLoop gain costs budget fuel ∅ 0 infl = some Sfin := by
  obtain ⟨-, hmem, hcost, hcard, hstable⟩ :=
    greedyLoop_invariant gain costs budget (infl.length + 1) infl ∅ 0
      (by omega) hpos hbudget Sfin h
  have hSfincost : costSum costs Sfin ≤ budget := by simpa using hcost
  have hmem' : ∀ v ∈ Sfin, v ∈ infl := by
    intro v hv
    rcases hmem v hv with h1 | h1
    · exact absurd h1 (Finset.not_mem_empty v)
    · exact h1
  refine ⟨hSfincost, ?_, hmem', by simpa using hcard, hstable⟩
  intro T hT
  have hmono : costSum costs T ≤ costSum costs Sfin := by
    apply Finset.sum_le_sum_of_subset_of_nonneg hT
    intro u hu _
    obtain ⟨c, hc, hcpos⟩ := hpos u (hmem' u hu)
    rw [hc]
    exact le_of_lt hcpos
  exact le_trans hmono hSfincost

/-- Witness for `greedy_budget_invariants` on the single candidate 1 of
cost 5 within budget 1000. -/
theorem greedy_budget_invariants_witness :
    costSum [(1, 5)] {1} ≤ 1000 ∧ ∀ v ∈ ({1} : Finset ℕ), v ∈ [1] := by
  have hpos : ∀ v ∈ [1], ∃ c, lookupCost [(1, 5)] v = some c ∧ 0 < c := by
    intro v hv
    simp only [List.mem_singleton] at hv
    subst hv
    exact ⟨5, by decide, by norm_num⟩
  obtain ⟨h1, -, h3, -, -⟩ :=
    greedy_budget_invariants (fun _ _ => 0) [(1, 5)] 1000 [1] (by norm_num)
      hpos {1} greedy_single_eval
  exact ⟨h1, h3⟩

end InfluenceInGraph
